import Mathlib

/-!
# Conduit: a verification development of the in-memory staged filesystem engine

Shallow embedding of the `conduit` engine:

* `crates/conduit-core/src/error.rs` — error kinds
* `crates/conduit-core/src/tools/line_ops.rs` — line operation engine
* `crates/conduit-core/src/tools/line_index.rs` — byte/line index
* `crates/conduit-core/src/tools/replace.rs` — replace plan build/apply
* `crates/conduit-core/src/tools/diff.rs` — line diff statistics
* `crates/conduit-core/src/fs/path.rs` — path normalization
* `crates/conduit-core/src/fs/index.rs` — file entries and index
* `crates/conduit-core/src/fs/manager.rs` — staging index manager
* `crates/conduit-wasm/src/orchestrator.rs` — request handlers

Rust strings are modelled as `List Char`; byte buffers as `List Nat`
(each element a `u8` value, no arithmetic overflows occur).  Functions
that in Rust mutate `&mut self` are modelled by explicit state passing;
fallible functions return `Except Error`.
-/

namespace Conduit

/-- Error kinds, from `conduit-core/src/error.rs` (variants wrapping
external library errors are collapsed to their message payload). -/
inductive Error where
  | StagingNotActive
  | StagingAlreadyActive
  | FileNotFound (path : String)
  | InvalidPath (msg : String)
  | InvalidRange (start stop : Nat)
  | Aborted
  | Encoding
  | Pattern (msg : String)
  | NoReplacementFound (start stop : Nat)
  | FileAlreadyExists (path : String)
  | MissingContent (path : String)
  | ReadOnlyFile (path : String)
  deriving Repr, DecidableEq

deriving instance DecidableEq for Except

/-! ## Model of the Rust `str` line primitives

`str::lines()` splits at `\n`, strips one trailing `\r` from each piece,
and does not produce a final empty piece when the string ends in `\n`.
-/

/-- `split('\n')` on a character list: always returns one more piece than
the number of `'\n'` characters. -/
def splitNl : List Char → List (List Char)
  | [] => [[]]
  | c :: cs =>
    if c = '\n' then [] :: splitNl cs
    else
      match splitNl cs with
      | [] => [[c]]
      | p :: ps => (c :: p) :: ps

/-- Strip one trailing `'\r'`, as `str::lines()` does per line. -/
def stripTrailingCr (l : List Char) : List Char :=
  if l.getLast? = some '\r' then l.dropLast else l

/-- Model of Rust `str::lines()`: the final piece produced by a trailing
newline is not yielded (for the empty string this leaves no lines). -/
def rustLines (s : List Char) : List (List Char) :=
  let ps := splitNl s
  let ps := if ps.getLast? = some [] then ps.dropLast else ps
  ps.map stripTrailingCr

/-- Number of lines, `s.lines().count()`. -/
def lineCount (s : List Char) : Nat :=
  (rustLines s).length

/-- Model of `Vec<String>::join("\n")`. -/
def joinNl (ls : List (List Char)) : List Char :=
  match ls with
  | [] => []
  | [l] => l
  | l :: ls => l ++ '\n' :: joinNl ls

/-! ## Line operation engine, from `tools/line_ops.rs` -/

/-- `LineOperation` — all line numbers 1-based inclusive (field `stop`
stands for the Rust field `end`). -/
inductive LineOperation where
  | ReplaceRange (start stop : Nat) (content : List Char)
  | DeleteRange (start stop : Nat)
  | InsertBefore (line : Nat) (content : List Char)
  | InsertAfter (line : Nat) (content : List Char)
  deriving Repr, DecidableEq

/-- The sort key used by `apply_line_operations` (the op's starting line). -/
def LineOperation.startLine : LineOperation → Nat
  | .ReplaceRange start _ _ => start
  | .DeleteRange start _ => start
  | .InsertBefore line _ => line
  | .InsertAfter line _ => line

/-- State threaded through the operation loop: current line vector,
total lines added, total lines removed. -/
structure LineOpState where
  lines : List (List Char)
  added : Nat
  removed : Nat
  deriving Repr, DecidableEq

/-- One iteration of the `for operation in sorted_ops` loop in
`apply_line_operations`.  Removal at index `start-1` repeated
`lines_to_remove` times and element-wise insertion are expressed with
`take`/`drop` splices. -/
def applyLineOp (st : LineOpState) (op : LineOperation) : LineOpState :=
  match op with
  | .ReplaceRange start stop content =>
    if start > 0 ∧ start ≤ st.lines.length ∧ start ≤ stop then
      let linesToRemove := min (stop - start + 1) (st.lines.length - (start - 1))
      let lines := st.lines.take (start - 1) ++ st.lines.drop (start - 1 + linesToRemove)
      let removed := st.removed + linesToRemove
      if content ≠ [] then
        let newLines := rustLines content
        { lines := lines.take (start - 1) ++ newLines ++ lines.drop (start - 1),
          added := st.added + newLines.length,
          removed := removed }
      else
        { st with lines := lines, removed := removed }
    else st
  | .DeleteRange start stop =>
    if start > 0 ∧ start ≤ st.lines.length ∧ start ≤ stop then
      let linesToRemove := min (stop - start + 1) (st.lines.length - (start - 1))
      { st with
        lines := st.lines.take (start - 1) ++ st.lines.drop (start - 1 + linesToRemove),
        removed := st.removed + linesToRemove }
    else st
  | .InsertBefore line content =>
    if line > 0 ∧ line ≤ st.lines.length + 1 then
      let newLines := rustLines content
      { st with
        lines := st.lines.take (line - 1) ++ newLines ++ st.lines.drop (line - 1),
        added := st.added + newLines.length }
    else st
  | .InsertAfter line content =>
    if line > 0 ∧ line ≤ st.lines.length then
      let newLines := rustLines content
      { st with
        lines := st.lines.take line ++ newLines ++ st.lines.drop line,
        added := st.added + newLines.length }
    else st

/-- `apply_line_operations(content, ops) → (new_content, added, removed)`.
Operations are stably sorted by starting line, descending
(`sort_by(|a, b| b_start.cmp(&a_start))`; insertion sort is stable, so it
computes the same list as Rust's stable sort under this comparator). -/
def apply_line_operations (content : List Char) (operations : List LineOperation) :
    List Char × Nat × Nat :=
  let endsWithNewline := content.getLast? = some '\n'
  let lines := rustLines content
  let sortedOps := operations.insertionSort (fun a b => b.startLine ≤ a.startLine)
  let st := sortedOps.foldl applyLineOp ⟨lines, 0, 0⟩
  let modifiedContent := joinNl st.lines
  let modifiedContent :=
    if endsWithNewline ∧ modifiedContent ≠ [] then modifiedContent ++ ['\n']
    else modifiedContent
  (modifiedContent, st.added, st.removed)

example :
    apply_line_operations "line 1\nline 2\nline 3".toList
      [.ReplaceRange 2 2 "modified line 2".toList] =
    ("line 1\nmodified line 2\nline 3".toList, 1, 1) := by decide

example :
    apply_line_operations "line 1\nline 2\nline 3\nline 4\nline 5".toList
      [.DeleteRange 2 4] =
    ("line 1\nline 5".toList, 0, 3) := by decide

example :
    apply_line_operations "line 1\nline 2\n".toList
      [.ReplaceRange 2 2 "modified line 2".toList] =
    ("line 1\nmodified line 2\n".toList, 1, 1) := by decide

example : apply_line_operations "\n".toList [] = ([], 0, 0) := by decide

example : lineCount "\n".toList = 1 := by decide

/-! ## Path normalization, from `fs/path.rs`

`normalize_for_index` rejects empty or control-character paths, then runs
`Path::normalize()` (lexical collapse of `.`/`..` components), converts to
POSIX slashes and strips trailing slashes except at the root.  The engine
runs with Unix path semantics, so `Path::components` yields `RootDir` for a
leading `/`, drops empty and `.` segments, and classifies `..` as
`ParentDir`; `normalize()` skips `CurDir`, pops the last pushed component on
`ParentDir` and pushes `Normal` components.  `to_slash_lossy` is the
identity on such paths. -/

/-- `split(sep)` on a character list. -/
def splitOnChar (sep : Char) : List Char → List (List Char)
  | [] => [[]]
  | c :: cs =>
    if c = sep then [] :: splitOnChar sep cs
    else
      match splitOnChar sep cs with
      | [] => [[c]]
      | p :: ps => (c :: p) :: ps

/-- Model of Rust `char::is_control` (Unicode category Cc). -/
def isRustControl (c : Char) : Bool :=
  decide (c.toNat < 0x20) || (decide (0x7F ≤ c.toNat) && decide (c.toNat ≤ 0x9F))

/-- `Vec::join("/")` for rendering the normalized component stack. -/
def joinSlash (ls : List (List Char)) : List Char :=
  match ls with
  | [] => []
  | [l] => l
  | l :: ls => l ++ '/' :: joinSlash ls

/-- `normalize_for_index` from `fs/path.rs`. -/
def normalize_for_index (s : List Char) : Except Error (List Char) :=
  if s = [] then .error (.InvalidPath "empty path")
  else if s.any isRustControl then .error (.InvalidPath "contains control chars")
  else
    let hasRoot := s.head? = some '/'
    let segs := (splitOnChar '/' s).filter (· ≠ [])
    -- `PathBuf::push`/`pop` over the components, as `normalize()` does.
    let stack := segs.foldl
      (fun (st : List (List Char)) seg =>
        if seg = ['.'] then st
        else if seg = ['.', '.'] then st.dropLast
        else st ++ [seg]) []
    let out := (if hasRoot then ['/'] else []) ++ joinSlash stack
    -- remove trailing slashes (keep "/" as-is)
    let out := if out.length > 1 then (out.reverse.dropWhile (· = '/')).reverse else out
    .ok out

/-- `TryFrom<&str> for PathKey`: normalize, then intern.  Interning returns
pointer-shared storage of the same normalized string, so the key is
modelled by the normalized string itself. -/
def pathKeyTryFrom (s : List Char) : Except Error (List Char) :=
  normalize_for_index s

example : pathKeyTryFrom "a/b/c".toList = .ok "a/b/c".toList := by decide
example : pathKeyTryFrom "./a//b/".toList = .ok "a/b".toList := by decide
example : pathKeyTryFrom "../x".toList = .ok "x".toList := by decide

/-! ## LineIndex, from `tools/line_index.rs` -/

/-- Byte⇄line mapping: 0-based byte offsets of line starts (first is always
0, strictly increasing) plus the total byte length. -/
structure LineIndex where
  line_starts : List Nat
  total_bytes : Nat
  deriving Repr, DecidableEq

/-- `LineIndex::build`: scan for the newline byte (10); a line start is
pushed for offset `nl + 1` only when it is strictly inside the buffer, so a
trailing newline creates no empty final line. -/
def LineIndex.build (bytes : List Nat) : LineIndex :=
  { line_starts :=
      0 :: ((List.range bytes.length).filter
        (fun nl => bytes.getD nl 0 == 10 && decide (nl + 1 < bytes.length))).map (· + 1),
    total_bytes := bytes.length }

/-- `LineIndex::line_count`. -/
def LineIndex.line_count (li : LineIndex) : Nat :=
  li.line_starts.length

/-- `LineIndex::byte_of_line_start` (1-based; `line.checked_sub(1)?`
returns `None` for line 0). -/
def LineIndex.byte_of_line_start (li : LineIndex) (line : Nat) : Option Nat :=
  if line = 0 then none else li.line_starts.get? (line - 1)

/-- `LineIndex::line_of_byte`: `partition_point(|&s| s <= byte)` on the
sorted `line_starts` equals the length of the prefix of elements `≤ byte`,
then `.max(1)`. -/
def LineIndex.line_of_byte (li : LineIndex) (byte : Nat) : Option Nat :=
  if byte ≥ li.total_bytes then none
  else some (max (li.line_starts.takeWhile (fun s => decide (s ≤ byte))).length 1)

example : (LineIndex.build [97, 10, 98, 10, 99, 10]).line_starts = [0, 2, 4] := by decide
example : (LineIndex.build [97, 10, 98]).line_of_byte 2 = some 2 := by decide
example : (LineIndex.build []).line_count = 1 := by decide
example : (LineIndex.build []).line_of_byte 0 = none := by decide

/-! ## FileEntry and Index, from `fs/index.rs`

`im::HashMap` is modelled as an association list with unique keys
(`assocInsert` replaces in place), `im::OrdSet` as a sorted duplicate-free
list.  File content (`Arc<[u8]>`) is modelled as `List Char`: every content
reaching the claims below is the UTF-8 text view, on which
`String::from_utf8_lossy` is the identity. -/

/-- Association-list lookup (`im::HashMap::get`). -/
def assocLookup {β : Type} (l : List (String × β)) (k : String) : Option β :=
  match l with
  | [] => none
  | (k', v) :: rest => if k' = k then some v else assocLookup rest k

/-- Association-list insert-or-replace (`im::HashMap::insert`). -/
def assocInsert {β : Type} (l : List (String × β)) (k : String) (v : β) :
    List (String × β) :=
  match l with
  | [] => [(k, v)]
  | (k', v') :: rest =>
    if k' = k then (k, v) :: rest else (k', v') :: assocInsert rest k v

/-- Association-list removal (`im::HashMap::remove`). -/
def assocErase {β : Type} (l : List (String × β)) (k : String) : List (String × β) :=
  match l with
  | [] => []
  | (k', v') :: rest => if k' = k then rest else (k', v') :: assocErase rest k

/-- `im::OrdSet::insert`: no-op when present, sorted insertion otherwise. -/
def ordInsert (l : List String) (k : String) : List String :=
  if k ∈ l then l else l.orderedInsert (· ≤ ·) k

/-- `im::OrdSet::remove`. -/
def ordErase (l : List String) (k : String) : List String :=
  match l with
  | [] => []
  | x :: rest => if x = k then rest else x :: ordErase rest k

/-- File metadata with optional content, from `fs/index.rs`. -/
structure FileEntry where
  ext : String
  mime_type : Option String
  size : Nat
  mtime : Int
  bytes : Option (List Char)
  text_content : Option (List Char)
  editable : Bool
  deriving Repr, DecidableEq

/-- `FileEntry::get_extension` (`Path::extension()`: the part of the file
name after the last `.`, none for dotless names and leading-dot names). -/
def FileEntry.get_extension (path : String) : String :=
  let name := ((splitOnChar '/' path.toList).getLast?).getD []
  let parts := splitOnChar '.' name
  if parts.length ≤ 1 then ""
  else if parts.head? = some [] ∧ parts.length = 2 then ""
  else ⟨(parts.getLast?).getD []⟩

/-- `FileEntry::from_bytes` (`size` is the content length). -/
def FileEntry.from_bytes (ext : String) (mtime : Int) (bytes : List Char)
    (editable : Bool) : FileEntry :=
  { ext := ext, mime_type := none, size := bytes.length, mtime := mtime,
    bytes := some bytes, text_content := none, editable := editable }

/-- `FileEntry::from_bytes_and_path`. -/
def FileEntry.from_bytes_and_path (path : String) (mtime : Int) (bytes : List Char)
    (editable : Bool) : FileEntry :=
  FileEntry.from_bytes (FileEntry.get_extension path) mtime bytes editable

/-- `FileEntry::search_content`: `text_content.or(bytes)`. -/
def FileEntry.search_content (e : FileEntry) : Option (List Char) :=
  e.text_content.or e.bytes

/-- Path-indexed file collection: exact-lookup map plus the ordered path
set used for prefix queries. -/
structure Index where
  files : List (String × FileEntry)
  prefixes : List String
  deriving Repr, DecidableEq

/-- `Index::default()`. -/
def Index.empty : Index := { files := [], prefixes := [] }

/-- `Index::get_file`. -/
def Index.get_file (idx : Index) (k : String) : Option FileEntry :=
  assocLookup idx.files k

/-- `Index::upsert_file`: fails with `ReadOnlyFile` when the existing entry
is non-editable, otherwise inserts into both the map and the ordered set. -/
def Index.upsert_file (idx : Index) (k : String) (e : FileEntry) : Except Error Index :=
  match assocLookup idx.files k with
  | some existing =>
    if existing.editable = false then .error (.ReadOnlyFile k)
    else .ok { files := assocInsert idx.files k e, prefixes := ordInsert idx.prefixes k }
  | none =>
    .ok { files := assocInsert idx.files k e, prefixes := ordInsert idx.prefixes k }

/-- `Index::remove_file`: read-only files may still be removed; the ordered
set is updated only when the key existed.  Returns whether it existed. -/
def Index.remove_file (idx : Index) (k : String) : Except Error (Bool × Index) :=
  let existed := (assocLookup idx.files k).isSome
  let files := assocErase idx.files k
  let prefixes := if existed then ordErase idx.prefixes k else idx.prefixes
  .ok (existed, { files := files, prefixes := prefixes })

/-- Well-formedness of an `Index`: unique map keys, duplicate-free ordered
set, and the ordered set mirrors the map's keys. -/
def IndexWF (idx : Index) : Prop :=
  (idx.files.map Prod.fst).Nodup ∧ idx.prefixes.Nodup ∧
    ∀ k, k ∈ idx.prefixes ↔ ∃ e, assocLookup idx.files k = some e

/-- An `upsert_file`/`remove_file` call on an `Index`. -/
inductive IndexOp where
  | upsert (k : String) (e : FileEntry)
  | remove (k : String)
  deriving Repr

/-- Successor index of one call (a failing `upsert_file` leaves the index
unchanged, as in the source the error returns before any mutation). -/
def indexStep (idx : Index) : IndexOp → Index
  | .upsert k e =>
    match idx.upsert_file k e with
    | .ok idx' => idx'
    | .error _ => idx
  | .remove k =>
    match idx.remove_file k with
    | .ok (_, idx') => idx'
    | .error _ => idx

/-- Run a call sequence from the empty index. -/
def applyIndexOps (ops : List IndexOp) : Index :=
  ops.foldl indexStep Index.empty

/-! ## Diff statistics, from `tools/diff.rs`

`compute_diff` drives the external `similar` crate
(`TextDiff::from_lines(...).iter_all_changes()`) and aggregates the change
stream into regions and stats. -/

/-- Change tag of one diff line (`similar::ChangeTag`). -/
inductive ChangeTag where
  | Equal
  | Delete
  | Insert
  deriving Repr, DecidableEq

/-- Longest-common-subsequence length of two line lists (fuel-indexed so
that it is structurally recursive; every call consumes one element, so
`xs.length + ys.length` fuel always suffices). -/
def lcsLenFuel : Nat → List (List Char) → List (List Char) → Nat
  | _, [], _ => 0
  | _, _ :: _, [] => 0
  | 0, _ :: _, _ :: _ => 0
  | fuel + 1, x :: xs, y :: ys =>
    if x = y then lcsLenFuel fuel xs ys + 1
    else max (lcsLenFuel fuel xs (y :: ys)) (lcsLenFuel fuel (x :: xs) ys)

/-- Longest-common-subsequence length of two line lists. -/
def lcsLen (xs ys : List (List Char)) : Nat :=
  lcsLenFuel (xs.length + ys.length) xs ys

/-- Fuel-indexed body of `diffChanges`; `xs.length + ys.length` fuel always
suffices. -/
def diffChangesFuel : Nat → List (List Char) → List (List Char) →
    List (ChangeTag × List Char)
  | _, [], ys => ys.map (fun y => (ChangeTag.Insert, y))
  | _, x :: xs, [] => (x :: xs).map (fun x => (ChangeTag.Delete, x))
  | 0, _ :: _, _ :: _ => []
  | fuel + 1, x :: xs, y :: ys =>
    if x = y then (ChangeTag.Equal, x) :: diffChangesFuel fuel xs ys
    else if lcsLen xs (y :: ys) ≥ lcsLen (x :: xs) ys then
      (ChangeTag.Delete, x) :: diffChangesFuel fuel xs (y :: ys)
    else (ChangeTag.Insert, y) :: diffChangesFuel fuel (x :: xs) ys

/-- Modelled from the spec: the change stream of the external `similar`
crate (`TextDiff::from_lines(...).iter_all_changes()`), which the spec
describes as a "line-based longest-common-subsequence-style diff" —
equal runs are emitted as `Equal`, non-common lines as `Delete`/`Insert`. -/
def diffChanges (xs ys : List (List Char)) : List (ChangeTag × List Char) :=
  diffChangesFuel (xs.length + ys.length) xs ys

/-- `TextDiff::from_lines` line splitting: pieces keep their trailing
newline; the empty string has no lines. -/
def splitKeepNl : List Char → List (List Char)
  | [] => []
  | c :: rest =>
    if c = '\n' then ['\n'] :: splitKeepNl rest
    else
      match splitKeepNl rest with
      | [] => [[c]]
      | p :: ps => (c :: p) :: ps

/-- `line.strip_suffix('\n').unwrap_or(line)`. -/
def stripTrailingNl (l : List Char) : List Char :=
  if l.getLast? = some '\n' then l.dropLast else l

/-- A region of change in a file diff. -/
structure DiffRegion where
  original_start : Nat
  lines_removed : Nat
  modified_start : Nat
  lines_added : Nat
  removed_lines : List (List Char)
  added_lines : List (List Char)
  deriving Repr, DecidableEq

/-- Summary statistics for a file diff. -/
structure DiffStats where
  lines_added : Nat
  lines_removed : Nat
  regions_changed : Nat
  deriving Repr, DecidableEq

/-- A complete file diff. -/
structure FileDiff where
  path : String
  stats : DiffStats
  regions : List DiffRegion
  deriving Repr, DecidableEq

/-- Accumulator of the `iter_all_changes` loop in `compute_diff`:
closed regions, the open region `(orig_start, mod_start, removed, added)`,
and the 1-based line cursors. -/
structure DiffAcc where
  regions : List DiffRegion
  current : Option (Nat × Nat × List (List Char) × List (List Char))
  original_line : Nat
  modified_line : Nat

/-- Close the open region, keeping it only when it is non-empty. -/
def closeRegion (regions : List DiffRegion)
    (current : Option (Nat × Nat × List (List Char) × List (List Char))) :
    List DiffRegion :=
  match current with
  | none => regions
  | some (origStart, modStart, removed, added) =>
    if removed ≠ [] ∨ added ≠ [] then
      regions ++ [{ original_start := origStart, lines_removed := removed.length,
                    modified_start := modStart, lines_added := added.length,
                    removed_lines := removed, added_lines := added }]
    else regions

/-- One iteration of the change loop in `compute_diff`. -/
def computeDiffStep (acc : DiffAcc) (change : ChangeTag × List Char) : DiffAcc :=
  match change.1 with
  | .Equal =>
    { regions := closeRegion acc.regions acc.current, current := none,
      original_line := acc.original_line + 1, modified_line := acc.modified_line + 1 }
  | .Delete =>
    let (origStart, modStart, removed, added) :=
      acc.current.getD (acc.original_line, acc.modified_line, [], [])
    -- update region start if this is the first removal in this region
    let origStart := if removed = [] ∧ added ≠ [] then acc.original_line else origStart
    { acc with
      current := some (origStart, modStart, removed ++ [stripTrailingNl change.2], added),
      original_line := acc.original_line + 1 }
  | .Insert =>
    let (origStart, modStart, removed, added) :=
      acc.current.getD (acc.original_line, acc.modified_line, [], [])
    -- update region start if this is the first addition in this region
    let modStart := if added = [] ∧ removed = [] then acc.modified_line else modStart
    { acc with
      current := some (origStart, modStart, removed, added ++ [stripTrailingNl change.2]),
      modified_line := acc.modified_line + 1 }

/-- `compute_diff(path, original, modified)`. -/
def compute_diff (path : String) (original modified : List Char) : FileDiff :=
  let changes := diffChanges (splitKeepNl original) (splitKeepNl modified)
  let acc := changes.foldl computeDiffStep ⟨[], none, 1, 1⟩
  let regions := closeRegion acc.regions acc.current
  { path := path,
    stats := { lines_added := (regions.map DiffRegion.lines_added).sum,
               lines_removed := (regions.map DiffRegion.lines_removed).sum,
               regions_changed := regions.length },
    regions := regions }

example :
    (compute_diff "t" "line 1\nline 2\nline 3".toList
      "line 1\nline 2 modified\nline 3".toList).stats = ⟨1, 1, 1⟩ := by decide

example :
    (compute_diff "t" "line 1\nline 2\nline 3".toList
      "line 1\nline 2\nline 3".toList).stats = ⟨0, 0, 0⟩ := by decide

example : (compute_diff "t" "".toList "line 1\nline 2\nline 3".toList).stats.lines_added = 3 := by
  decide

/-! ## IndexManager, from `fs/manager.rs`

Functions taking `&self` and mutating behind locks are modelled by
explicit state passing: each operation returns its `Result` together with
the successor manager state.  `ArcSwap` reads (`active.load_full()`) are
the `active` field; a snapshot handle is the captured `Index` value. -/

/-- Statistics about changes to a file. -/
structure FileChangeStats where
  lines_added : Int
  lines_removed : Int
  original_line_count : Nat
  current_line_count : Nat
  deriving Repr, DecidableEq

/-- Staging session state.  `snapshot`, `modified` and `change_stats` are
from `fs/manager.rs`; `moves` is modelled from the spec (§3 StagingState:
"a moves mapping (`src → dst`)") — the revision of `fs/manager.rs` under
`src/` predates it, but the orchestrator's move path requires it. -/
structure StagingState where
  snapshot : Index
  modified : List String
  change_stats : List (String × FileChangeStats)
  moves : List (String × String)
  deriving Repr, DecidableEq

/-- Manager state: active index (atomically swappable), optional staging
session (behind the writer mutex), and the line-index cache keyed by
`(PathKey, mtime)`. -/
structure IndexManager where
  active : Index
  staged : Option StagingState
  line_index_cache : List ((String × Int) × LineIndex)
  deriving Repr, DecidableEq

/-- `IndexManager::default()`. -/
def IndexManager.empty : IndexManager :=
  { active := Index.empty, staged := none, line_index_cache := [] }

/-- `IndexManager::active_index()`: lock-free snapshot of the active
index. -/
def IndexManager.active_index (m : IndexManager) : Index :=
  m.active

/-- `IndexManager::begin_staging()`: when a session is already active the
body returns `Ok(())` without touching it ("noting to do"), despite the
doc comment "Fails if already staging."; otherwise a session starts from a
snapshot of active. -/
def IndexManager.begin_staging (m : IndexManager) : Except Error Unit × IndexManager :=
  match m.staged with
  | some _ => (.ok (), m)
  | none =>
    (.ok (), { m with staged := some { snapshot := m.active, modified := [],
                                       change_stats := [], moves := [] } })

/-- `IndexManager::stage_file`: requires staging; marks the key modified
and invalidates its cached line indices *before* the upsert, so a
`ReadOnlyFile` failure still leaves those two effects behind. -/
def IndexManager.stage_file (m : IndexManager) (k : String) (e : FileEntry) :
    Except Error Unit × IndexManager :=
  match m.staged with
  | none => (.error .StagingNotActive, m)
  | some st =>
    let st := { st with modified := ordInsert st.modified k }
    let cache := m.line_index_cache.filter (fun kv => kv.1.1 ≠ k)
    match st.snapshot.upsert_file k e with
    | .error err => (.error err, { m with staged := some st, line_index_cache := cache })
    | .ok idx =>
      (.ok (), { m with staged := some { st with snapshot := idx },
                        line_index_cache := cache })

/-- `IndexManager::update_line_stats`: recomputes the stats entry from a
diff of the active content against the staged content (`entry().or_insert`
followed by overwriting all four fields, so the stored value never depends
on a prior entry).  The `_lines_added`/`_lines_removed` arguments are
unused in the source. -/
def IndexManager.update_line_stats (m : IndexManager) (k : String)
    (_linesAdded _linesRemoved : Int) (currentLineCount : Nat) :
    Except Error Unit × IndexManager :=
  match m.staged with
  | none => (.error .StagingNotActive, m)
  | some st =>
    let (originalContent, originalLineCount) :=
      match m.active.get_file k with
      | some entry =>
        match entry.bytes with
        | some bytes => (bytes, lineCount bytes)
        | none => ([], 0)
      | none => ([], 0)
    let stagedContent :=
      match st.snapshot.get_file k with
      | some entry =>
        match entry.bytes with
        | some bytes => bytes
        | none => []
      | none => []
    let diff := compute_diff k originalContent stagedContent
    let stats : FileChangeStats :=
      { lines_added := (diff.stats.lines_added : Int),
        lines_removed := (diff.stats.lines_removed : Int),
        original_line_count := originalLineCount,
        current_line_count := currentLineCount }
    let st := { st with change_stats := assocInsert st.change_stats k stats }
    (.ok (), { m with staged := some st })

/-- `IndexManager::remove_staged_file`. -/
def IndexManager.remove_staged_file (m : IndexManager) (k : String) :
    Except Error Unit × IndexManager :=
  match m.staged with
  | none => (.error .StagingNotActive, m)
  | some st =>
    let st := { st with modified := ordInsert st.modified k,
                        change_stats := assocErase st.change_stats k }
    let cache := m.line_index_cache.filter (fun kv => kv.1.1 ≠ k)
    match st.snapshot.remove_file k with
    | .ok (_, idx) =>
      (.ok (), { m with staged := some { st with snapshot := idx },
                        line_index_cache := cache })
    | .error err => (.error err, { m with staged := some st, line_index_cache := cache })

/-- `IndexManager::promote_staged`: atomic swap of the staged snapshot
into active; the session is dropped and the line-index cache cleared.
Existing readers keep the `Index` values they already hold. -/
def IndexManager.promote_staged (m : IndexManager) : Except Error Unit × IndexManager :=
  match m.staged with
  | none => (.error .StagingNotActive, m)
  | some st =>
    (.ok (), { active := st.snapshot, staged := none, line_index_cache := [] })

/-- `IndexManager::revert_staged`. -/
def IndexManager.revert_staged (m : IndexManager) : Except Error Unit × IndexManager :=
  match m.staged with
  | none => (.error .StagingNotActive, m)
  | some _ => (.ok (), { m with staged := none })

/-- `IndexManager::staged_index`. -/
def IndexManager.staged_index (m : IndexManager) : Except Error Index :=
  match m.staged with
  | none => .error .StagingNotActive
  | some st => .ok st.snapshot

/-- Modelled from the spec: `with_snapshot` is absent from the
`fs/manager.rs` revision under `src/` (only the orchestrator calls it).
Spec §4.3/§5: "transactional scope — capture the current staging state,
run a closure, restore the captured state on error, providing
all-or-nothing semantics for batch line edits and batch moves." -/
def IndexManager.with_snapshot {α : Type} (m : IndexManager)
    (f : IndexManager → Except Error α × IndexManager) :
    Except Error α × IndexManager :=
  let saved := m.staged
  match f m with
  | (.ok a, m') => (.ok a, m')
  | (.error e, m') => (.error e, { m' with staged := saved })

/-- Modelled from the spec: `move_staged_file` is absent from the
`fs/manager.rs` revision under `src/` (only the orchestrator calls it).
Spec §4.3: "atomically relocates an entry from `src` to `dst` without
copying content; updates mtime on the entry; records `src → dst` in moves;
marks both keys modified. Fails with `FileNotFound` if `src` missing";
staging-requiring operations fail with `StagingNotActive` (§4.3). -/
def IndexManager.move_staged_file (m : IndexManager) (src dst : String)
    (newMtime : Int) : Except Error Unit × IndexManager :=
  match m.staged with
  | none => (.error .StagingNotActive, m)
  | some st =>
    match st.snapshot.get_file src with
    | none => (.error (.FileNotFound src), m)
    | some e =>
      let e := { e with mtime := newMtime }
      let snapshot : Index :=
        { files := assocInsert (assocErase st.snapshot.files src) dst e,
          prefixes := ordInsert (ordErase st.snapshot.prefixes src) dst }
      let st := { st with snapshot := snapshot,
                          modified := ordInsert (ordInsert st.modified src) dst,
                          moves := assocInsert st.moves src dst }
      (.ok (), { m with staged := some st })

/-! ## Orchestrator handlers, from `conduit-wasm/src/orchestrator.rs`

`current_unix_timestamp()` is passed in as `now`. -/

/-- Which buffer set to operate on. -/
inductive SearchSpace where
  | Active
  | Staged
  deriving Repr, DecidableEq

/-- `Orchestrator::get_file_content`. -/
def get_file_content (m : IndexManager) (path : String) (w : SearchSpace) :
    Except Error (List Char) :=
  let index : Except Error Index :=
    match w with
    | .Staged => m.staged_index
    | .Active => .ok m.active_index
  match index with
  | .error e => .error e
  | .ok idx =>
    match idx.get_file path with
    | none => .error (.InvalidPath ("File not found: " ++ path))
    | some entry =>
      match entry.search_content with
      | none => .error (.MissingContent ("File has no content: " ++ path))
      | some content => .ok content

/-- `Orchestrator::stage_file_with_content`: keeps the existing entry's
editable flag (default editable), then stages the new entry. -/
def stage_file_with_content (m : IndexManager) (path : String)
    (content : List Char) (now : Int) : Except Error Unit × IndexManager :=
  match m.staged_index with
  | .error e => (.error e, m)
  | .ok staged =>
    let editable := ((staged.get_file path).map FileEntry.editable).getD true
    m.stage_file path (FileEntry.from_bytes_and_path path now content editable)

/-- `ReplaceLinesRequest` (replacements are `(start, end, content)`,
1-based inclusive). -/
structure ReplaceLinesRequest where
  path : String
  replacements : List (Nat × Nat × List Char)
  deriving Repr, DecidableEq

/-- `ReplaceLinesResponse`. -/
structure ReplaceLinesResponse where
  path : String
  lines_replaced : Nat
  lines_added : Int
  total_lines : Nat
  original_lines : Nat
  deriving Repr, DecidableEq

/-- `Orchestrator::handle_replace_lines`. -/
def handle_replace_lines (m : IndexManager) (now : Int) (req : ReplaceLinesRequest) :
    Except Error ReplaceLinesResponse × IndexManager :=
  m.with_snapshot (fun m =>
    match get_file_content m req.path .Staged with
    | .error e => (.error e, m)
    | .ok content =>
      let originalLines := lineCount content
      let operations := req.replacements.map
        (fun r => LineOperation.ReplaceRange r.1 r.2.1 r.2.2)
      let res := apply_line_operations content operations
      let modifiedContent := res.1
      let linesAdded := res.2.1
      let linesRemoved := res.2.2
      let totalLines := lineCount modifiedContent
      match stage_file_with_content m req.path modifiedContent now with
      | (.error e, m') => (.error e, m')
      | (.ok _, m') =>
        match m'.update_line_stats req.path (linesAdded : Int) (linesRemoved : Int)
            totalLines with
        | (.error e, m'') => (.error e, m'')
        | (.ok _, m'') =>
          (.ok { path := req.path, lines_replaced := linesRemoved,
                 lines_added := (linesAdded : Int) - (linesRemoved : Int),
                 total_lines := totalLines, original_lines := originalLines }, m''))

/-- The `for operation in &req.operations` loop of `handle_move_files`,
stopping at the first failure (`?`). -/
def moveAll (now : Int) : IndexManager → List (String × String) →
    Except Error Unit × IndexManager
  | m, [] => (.ok (), m)
  | m, (src, dst) :: rest =>
    match m.move_staged_file src dst now with
    | (.ok _, m') => moveAll now m' rest
    | (.error e, m') => (.error e, m')

/-- `Orchestrator::handle_move_files`: the whole batch runs under
`with_snapshot`; the response carries the operation count. -/
def handle_move_files (m : IndexManager) (now : Int)
    (operations : List (String × String)) : Except Error Nat × IndexManager :=
  m.with_snapshot (fun m =>
    match moveAll now m operations with
    | (.ok _, m') => (.ok operations.length, m')
    | (.error e, m') => (.error e, m'))

/-- `Orchestrator::copy_single_file`. -/
def copy_single_file (m : IndexManager) (now : Int) (src dst : String) :
    Except Error Unit × IndexManager :=
  match m.staged_index with
  | .error e => (.error e, m)
  | .ok staged =>
    match staged.get_file src with
    | none => (.error (.FileNotFound src), m)
    | some entry =>
      match entry.bytes with
      | none => (.error (.MissingContent ("No original bytes for: " ++ src)), m)
      | some originalBytes =>
        let lineCnt := originalBytes.count '\n' + 1
        let srcContent := originalBytes
        match stage_file_with_content m dst srcContent now with
        | (.error e, m') => (.error e, m')
        | (.ok _, m') =>
          match get_file_content m' dst .Active with
          | .ok activeContent =>
            m'.update_line_stats dst (lineCnt : Int) (lineCount activeContent : Int) lineCnt
          | .error _ =>
            m'.update_line_stats dst (lineCnt : Int) 0 lineCnt

/-- The `for operation in &req.operations` loop of `handle_copy_files`. -/
def copyAll (now : Int) : IndexManager → List (String × String) →
    Except Error Unit × IndexManager
  | m, [] => (.ok (), m)
  | m, (src, dst) :: rest =>
    match copy_single_file m now src dst with
    | (.ok _, m') => copyAll now m' rest
    | (.error e, m') => (.error e, m')

/-- `Orchestrator::handle_copy_files`. -/
def handle_copy_files (m : IndexManager) (now : Int)
    (operations : List (String × String)) : Except Error Nat × IndexManager :=
  m.with_snapshot (fun m =>
    match copyAll now m operations with
    | (.ok _, m') => (.ok operations.length, m')
    | (.error e, m') => (.error e, m'))

/-! Staging-phase operation sequences, used to state frame properties of
the active index across a staging session. -/

/-- A staging-phase manager operation (everything a writer can do between
capturing a snapshot and promoting, except promotion itself). -/
inductive MgrOp where
  | beginStaging
  | stageFile (k : String) (e : FileEntry)
  | removeStagedFile (k : String)
  | updateLineStats (k : String) (la lr : Int) (c : Nat)
  | moveStagedFile (src dst : String) (mtime : Int)
  | revertStaged
  deriving Repr

/-- Successor state of one staging-phase operation (the `Result` is
dropped: failed operations also leave a successor state). -/
def mgrStep (m : IndexManager) : MgrOp → IndexManager
  | .beginStaging => m.begin_staging.2
  | .stageFile k e => (m.stage_file k e).2
  | .removeStagedFile k => (m.remove_staged_file k).2
  | .updateLineStats k la lr c => (m.update_line_stats k la lr c).2
  | .moveStagedFile src dst mtime => (m.move_staged_file src dst mtime).2
  | .revertStaged => m.revert_staged.2

/-- Run a sequence of staging-phase operations. -/
def applyMgrOps (m : IndexManager) (ops : List MgrOp) : IndexManager :=
  ops.foldl mgrStep m

/-! ## Replace plan, from `tools/replace.rs`

Byte buffers are `List Nat` (`u8` values).  The candidate edits gathered by
`plan_in_bytes` come from the external regex engine (`search_regions` +
`find_matches` + `replace_at`); the engine guarantees that every candidate
span lies inside the haystack with `start <= end`, and with the identity
template `"$0"` the interpolated replacement is exactly the matched bytes.
Candidates satisfying these interface guarantees are taken as input; the
sort-and-filter tail of `plan_in_bytes` and `apply_plan` are embedded from
the source. -/

/-- Absolute half-open byte range (`stop` stands for the Rust field
`end`). -/
structure ByteSpan where
  start : Nat
  stop : Nat
  deriving Repr, DecidableEq

/-- One concrete edit to apply to the haystack. -/
structure EditOp where
  span : ByteSpan
  replacement : List Nat
  line_shift : Int
  deriving Repr, DecidableEq

/-- A set of non-overlapping, start-sorted edits. -/
structure ReplacePlan where
  ops : List EditOp
  deriving Repr, DecidableEq

/-- `&haystack[a..b]`. -/
def sliceBytes (l : List Nat) (a b : Nat) : List Nat :=
  (l.take b).drop a

/-- `count_newlines`. -/
def count_newlines (bytes : List Nat) : Nat :=
  bytes.count 10

/-- The overlap-dropping loop of `plan_in_bytes` (keep an op iff its start
is not before the previous kept end, starting from `last_end = 0`). -/
def dropOverlapping : Nat → List EditOp → List EditOp
  | _, [] => []
  | lastEnd, op :: rest =>
    if op.span.start ≥ lastEnd then op :: dropOverlapping op.span.stop rest
    else dropOverlapping lastEnd rest

/-- The "globally sort and drop overlaps" tail of `plan_in_bytes`
(`sort_by_key(start)` is stable, as is insertion sort under `≤`). -/
def plan_in_bytes_from (candidates : List EditOp) : ReplacePlan :=
  if candidates.length > 1 then
    { ops := dropOverlapping 0
        (candidates.insertionSort (fun a b => a.span.start ≤ b.span.start)) }
  else { ops := candidates }

/-- The single-pass rewrite loop of `apply_plan` plus the final tail copy
(the capacity pre-computation has no observable effect and is omitted). -/
def applyOpsFrom (hay : List Nat) : List EditOp → Nat → List Nat
  | [], cursor => if cursor < hay.length then sliceBytes hay cursor hay.length else []
  | op :: rest, cursor =>
    (if op.span.start > cursor then sliceBytes hay cursor op.span.start else []) ++
      op.replacement ++ applyOpsFrom hay rest op.span.stop

/-- `apply_plan(haystack, plan)`: empty plan returns an unchanged copy. -/
def apply_plan (hay : List Nat) (plan : ReplacePlan) : List Nat :=
  if plan.ops.isEmpty then hay else applyOpsFrom hay plan.ops 0

/-- What the regex engine and the `"$0"` template guarantee for every
candidate edit: an in-bounds span whose replacement is the matched bytes
themselves. -/
def IdentityOp (hay : List Nat) (op : EditOp) : Prop :=
  op.span.start ≤ op.span.stop ∧ op.span.stop ≤ hay.length ∧
    op.replacement = sliceBytes hay op.span.start op.span.stop

instance (hay : List Nat) (op : EditOp) : Decidable (IdentityOp hay op) := by
  unfold IdentityOp; infer_instance

/-- A plan fragment is an identity chain from `cursor` when each op starts
no earlier than the cursor, is an identity edit, and the rest chains from
its end. -/
def IdChain (hay : List Nat) : Nat → List EditOp → Prop
  | _, [] => True
  | c, op :: rest => c ≤ op.span.start ∧ IdentityOp hay op ∧ IdChain hay op.span.stop rest

example :
    apply_plan [97, 98, 99] (plan_in_bytes_from
      [⟨⟨1, 2⟩, [120], 0⟩]) = [97, 120, 99] := by decide

/-! ## Theorems -/

theorem sliceBytes_full (l : List Nat) : sliceBytes l 0 l.length = l := by
  simp [sliceBytes]

theorem sliceBytes_of_le (l : List Nat) {a b : Nat} (h : b ≤ a) :
    sliceBytes l a b = [] := by
  apply List.drop_eq_nil_of_le
  calc (l.take b).length = min b l.length := List.length_take b l
    _ ≤ a := le_trans (min_le_left _ _) h

theorem drop_take_append (t : List Nat) (a b : Nat) (hab : a ≤ b) :
    (t.take b).drop a ++ t.drop b = t.drop a := by
  conv_rhs => rw [← List.take_append_drop b t]
  rw [List.drop_append_eq_append_drop]
  rcases le_or_lt a (t.take b).length with h | h
  · have : a - (t.take b).length = 0 := Nat.sub_eq_zero_of_le h
    rw [this, List.drop_zero]
  · have hlb : t.length ≤ b := by
      have := List.length_take b t
      omega
    have h1 : (t.take b).drop a = [] := List.drop_eq_nil_of_le (le_of_lt h)
    have h2 : t.drop b = [] := List.drop_eq_nil_of_le hlb
    simp [h1, h2]

theorem sliceBytes_append (l : List Nat) {a b c : Nat} (hab : a ≤ b) (hbc : b ≤ c) :
    sliceBytes l a b ++ sliceBytes l b c = sliceBytes l a c := by
  unfold sliceBytes
  have htake : l.take b = (l.take c).take b := by
    rw [List.take_take, Nat.min_eq_left hbc]
  rw [htake]
  exact drop_take_append (l.take c) a b hab

theorem applyOpsFrom_of_chain (hay : List Nat) :
    ∀ (ops : List EditOp) (c : Nat), IdChain hay c ops →
      applyOpsFrom hay ops c = sliceBytes hay c hay.length := by
  intro ops
  induction ops with
  | nil =>
    intro c _
    unfold applyOpsFrom
    split
    · rfl
    · exact (sliceBytes_of_le hay (by omega)).symm
  | cons op rest ih =>
    intro c h
    obtain ⟨hc, ⟨hse, heb, hrepl⟩, hchain⟩ := h
    unfold applyOpsFrom
    rw [ih _ hchain, hrepl]
    have hgap : (if op.span.start > c then sliceBytes hay c op.span.start else []) =
        sliceBytes hay c op.span.start := by
      split
      · rfl
      · exact (sliceBytes_of_le hay (by omega)).symm
    rw [hgap, List.append_assoc, sliceBytes_append hay hse heb,
      sliceBytes_append hay hc (le_trans hse heb)]

theorem dropOverlapping_chain (hay : List Nat) :
    ∀ (ops : List EditOp), (∀ op ∈ ops, IdentityOp hay op) →
      ∀ c, IdChain hay c (dropOverlapping c ops) := by
  intro ops
  induction ops with
  | nil => intro _ c; trivial
  | cons op rest ih =>
    intro h c
    unfold dropOverlapping
    split
    · exact ⟨by omega, h op (List.mem_cons_self op rest),
        ih (fun o ho => h o (List.mem_cons_of_mem op ho)) op.span.stop⟩
    · exact ih (fun o ho => h o (List.mem_cons_of_mem op ho)) c

/-- C8: identity replacement round-trip.  Applying the plan built with the
identity template `"$0"` returns the original buffer unchanged.  The regex
engine is abstracted by the hypothesis: every candidate edit it produces
under `"$0"` has an in-bounds span (`start ≤ end ≤ len`) whose replacement
bytes are exactly the matched bytes; the sort-and-filter tail of
`plan_in_bytes` and all of `apply_plan` are the embedded source. -/
theorem identity_plan_roundtrip (hay : List Nat) (candidates : List EditOp)
    (h : ∀ op ∈ candidates, IdentityOp hay op) :
    apply_plan hay (plan_in_bytes_from candidates) = hay := by
  unfold plan_in_bytes_from
  split
  · -- more than one candidate: sorted then filtered
    have hmem : ∀ op ∈ candidates.insertionSort
        (fun a b => a.span.start ≤ b.span.start), IdentityOp hay op := by
      intro op hop
      exact h op ((List.perm_insertionSort _ candidates).mem_iff.mp hop)
    have hchain := dropOverlapping_chain hay _ hmem 0
    unfold apply_plan
    split
    · rename_i hempty
      rfl
    · rw [applyOpsFrom_of_chain hay _ 0 hchain, sliceBytes_full]
  · -- zero or one candidate: the list is kept as-is
    match candidates, h with
    | [], _ => rfl
    | [op], h =>
      have hop := h op (List.mem_singleton_self op)
      unfold apply_plan
      split
      · rfl
      · rw [applyOpsFrom_of_chain hay [op] 0 ⟨Nat.zero_le _, hop, trivial⟩,
          sliceBytes_full]
    | op₁ :: op₂ :: rest, _ =>
      rename_i hlen
      exact absurd (by simp) hlen

/-- C8 witness: a concrete buffer and two concrete identity candidates. -/
theorem identity_plan_roundtrip_witness :
    (∀ op ∈ ([⟨⟨0, 1⟩, [97], 0⟩, ⟨⟨3, 4⟩, [97], 0⟩] : List EditOp),
      IdentityOp [97, 98, 99, 97, 98] op) ∧
    apply_plan [97, 98, 99, 97, 98]
      (plan_in_bytes_from [⟨⟨0, 1⟩, [97], 0⟩, ⟨⟨3, 4⟩, [97], 0⟩]) =
      [97, 98, 99, 97, 98] :=
  ⟨by decide, identity_plan_roundtrip [97, 98, 99, 97, 98] _ (by decide)⟩

/-- C7: path normalization boundary values.  `""` fails with
`InvalidPath`; `"a/./b/../c"` normalizes to `"a/c"`; `"a/"` to `"a"`;
`"/"` stays `"/"`. -/
theorem path_normalization_boundary_values :
    pathKeyTryFrom "".toList = .error (.InvalidPath "empty path") ∧
    pathKeyTryFrom "a/./b/../c".toList = .ok "a/c".toList ∧
    pathKeyTryFrom "a/".toList = .ok "a".toList ∧
    pathKeyTryFrom "/".toList = .ok "/".toList := by
  refine ⟨by decide, by decide, by decide, by decide⟩

/-- C2 (code bug): `begin_staging` on a manager whose staging session is
already active returns `Ok(())` and leaves the manager unchanged — an
idempotent no-op — contradicting both the claim and the function's own
doc comment "Fails if already staging." (and the legacy
`conduit-core/src/manager.rs`, dead code outside the module tree, which
returned `StagingAlreadyActive`). -/
theorem begin_staging_already_active_noop :
    (IndexManager.empty.begin_staging.2).staged.isSome = true ∧
    (IndexManager.empty.begin_staging.2).begin_staging =
      (.ok (), IndexManager.empty.begin_staging.2) := by
  refine ⟨by decide, by decide⟩

theorem mgrStep_active (m : IndexManager) (op : MgrOp) :
    (mgrStep m op).active = m.active := by
  cases op <;>
    simp only [mgrStep, IndexManager.begin_staging, IndexManager.stage_file,
      IndexManager.remove_staged_file, IndexManager.update_line_stats,
      IndexManager.move_staged_file, IndexManager.revert_staged] <;>
    (repeat' split) <;> rfl

theorem applyMgrOps_active (ops : List MgrOp) :
    ∀ m : IndexManager, (applyMgrOps m ops).active = m.active := by
  induction ops with
  | nil => intro m; rfl
  | cons op rest ih =>
    intro m
    calc (applyMgrOps (mgrStep m op) rest).active = (mgrStep m op).active := ih _
      _ = m.active := mgrStep_active m op

/-- C1: snapshot isolation across promotion.  A snapshot handle is the
`Index` value obtained from `active_index()`; staging-phase operations
(`ops`) never modify the `active` field, so the handle captured before
promotion observes exactly the pre-promotion entries, while
`promote_staged` succeeds, swaps the formerly staged index into `active`
and drops the session — returning a successor state in which a fresh
`active_index()` call yields the formerly staged index, without touching
any previously captured `Index` value. -/
theorem promote_staged_snapshot_isolation (m : IndexManager) (ops : List MgrOp)
    (st : StagingState) (h : (applyMgrOps m ops).staged = some st) :
    (applyMgrOps m ops).promote_staged =
      (.ok (), { active := st.snapshot, staged := none, line_index_cache := [] }) ∧
    (applyMgrOps m ops).active_index = m.active_index ∧
    ((applyMgrOps m ops).promote_staged.2).active_index = st.snapshot := by
  have hpromote : (applyMgrOps m ops).promote_staged =
      (.ok (), { active := st.snapshot, staged := none, line_index_cache := [] }) := by
    unfold IndexManager.promote_staged
    rw [h]
  refine ⟨hpromote, applyMgrOps_active ops m, by rw [hpromote]; rfl⟩

/-- C1 witness: an empty manager, one `begin_staging` followed by staging
one file, with the resulting staging state written out explicitly. -/
theorem promote_staged_snapshot_isolation_witness :
    ((applyMgrOps IndexManager.empty
        [.beginStaging, .stageFile "b.txt" (FileEntry.from_bytes "txt" 7 ['x'] true)]).staged =
      some { snapshot := { files := [("b.txt", FileEntry.from_bytes "txt" 7 ['x'] true)],
                           prefixes := ["b.txt"] },
             modified := ["b.txt"], change_stats := [], moves := [] }) ∧
    ((applyMgrOps IndexManager.empty
        [.beginStaging, .stageFile "b.txt" (FileEntry.from_bytes "txt" 7 ['x'] true)]).promote_staged.2).active_index =
      { files := [("b.txt", FileEntry.from_bytes "txt" 7 ['x'] true)],
        prefixes := ["b.txt"] } :=
  ⟨by decide,
   (promote_staged_snapshot_isolation IndexManager.empty
     [.beginStaging, .stageFile "b.txt" (FileEntry.from_bytes "txt" 7 ['x'] true)]
     { snapshot := { files := [("b.txt", FileEntry.from_bytes "txt" 7 ['x'] true)],
                     prefixes := ["b.txt"] },
       modified := ["b.txt"], change_stats := [], moves := [] }
     (by decide)).2.2⟩

/-! Association-list and ordered-set lemmas for the index invariant. -/

theorem assocLookup_insert_self {β : Type} (l : List (String × β)) (k : String) (v : β) :
    assocLookup (assocInsert l k v) k = some v := by
  induction l with
  | nil => simp [assocInsert, assocLookup]
  | cons hd tl ih =>
    obtain ⟨k₀, v₀⟩ := hd
    by_cases h : k₀ = k
    · simp [assocInsert, h, assocLookup]
    · simp [assocInsert, h, assocLookup, ih]

theorem assocLookup_insert_ne {β : Type} (l : List (String × β)) (k : String) (v : β)
    (k' : String) (h : k' ≠ k) :
    assocLookup (assocInsert l k v) k' = assocLookup l k' := by
  induction l with
  | nil => simp [assocInsert, assocLookup, Ne.symm h]
  | cons hd tl ih =>
    obtain ⟨k₀, v₀⟩ := hd
    by_cases h0 : k₀ = k
    · subst h0
      simp [assocInsert, assocLookup, Ne.symm h]
    · simp only [assocInsert, if_neg h0, assocLookup]
      by_cases h1 : k₀ = k'
      · simp [h1]
      · simp [h1, ih]

theorem mem_keys_assocInsert {β : Type} (l : List (String × β)) (k : String) (v : β)
    (k'' : String) :
    k'' ∈ (assocInsert l k v).map Prod.fst ↔ k'' = k ∨ k'' ∈ l.map Prod.fst := by
  induction l with
  | nil => simp [assocInsert]
  | cons hd tl ih =>
    obtain ⟨k₀, v₀⟩ := hd
    by_cases h : k₀ = k
    · subst h
      simp [assocInsert]
    · simp [assocInsert, h, ih]
      tauto

theorem nodup_keys_assocInsert {β : Type} (l : List (String × β)) (k : String) (v : β)
    (h : (l.map Prod.fst).Nodup) : ((assocInsert l k v).map Prod.fst).Nodup := by
  induction l with
  | nil => simp [assocInsert]
  | cons hd tl ih =>
    obtain ⟨k₀, v₀⟩ := hd
    simp only [List.map_cons, List.nodup_cons] at h
    by_cases h0 : k₀ = k
    · subst h0
      simpa [assocInsert] using h
    · have : (assocInsert ((k₀, v₀) :: tl) k v).map Prod.fst =
          k₀ :: (assocInsert tl k v).map Prod.fst := by
        simp [assocInsert, h0]
      rw [this]
      refine List.Nodup.cons ?_ (ih h.2)
      intro hmem
      rcases (mem_keys_assocInsert tl k v k₀).mp hmem with he | hm
      · exact h0 he
      · exact h.1 hm

theorem assocErase_sublist {β : Type} (l : List (String × β)) (k : String) :
    List.Sublist (assocErase l k) l := by
  induction l with
  | nil => simp [assocErase]
  | cons hd tl ih =>
    obtain ⟨k₀, v₀⟩ := hd
    by_cases h : k₀ = k
    · simp [assocErase, h]
    · rw [show assocErase ((k₀, v₀) :: tl) k = (k₀, v₀) :: assocErase tl k from by
        simp [assocErase, h]]
      exact ih.cons₂ (k₀, v₀)

theorem assocLookup_eq_none_of_not_mem {β : Type} (l : List (String × β)) (k : String)
    (h : k ∉ l.map Prod.fst) : assocLookup l k = none := by
  induction l with
  | nil => rfl
  | cons hd tl ih =>
    obtain ⟨k₀, v₀⟩ := hd
    simp only [List.map_cons, List.mem_cons] at h
    push_neg at h
    simp [assocLookup, Ne.symm h.1, ih h.2]

theorem assocLookup_erase_self {β : Type} (l : List (String × β)) (k : String)
    (h : (l.map Prod.fst).Nodup) : assocLookup (assocErase l k) k = none := by
  induction l with
  | nil => rfl
  | cons hd tl ih =>
    obtain ⟨k₀, v₀⟩ := hd
    simp only [List.map_cons, List.nodup_cons] at h
    by_cases h0 : k₀ = k
    · subst h0
      simp only [assocErase, if_pos rfl]
      exact assocLookup_eq_none_of_not_mem tl k₀ h.1
    · simp [assocErase, h0, assocLookup, ih h.2]

theorem assocLookup_erase_ne {β : Type} (l : List (String × β)) (k k' : String)
    (h : k' ≠ k) : assocLookup (assocErase l k) k' = assocLookup l k' := by
  induction l with
  | nil => rfl
  | cons hd tl ih =>
    obtain ⟨k₀, v₀⟩ := hd
    by_cases h0 : k₀ = k
    · subst h0
      simp [assocErase, assocLookup, Ne.symm h]
    · simp only [assocErase, if_neg h0, assocLookup]
      by_cases h1 : k₀ = k'
      · simp [h1]
      · simp [h1, ih]

theorem assocErase_of_lookup_none {β : Type} (l : List (String × β)) (k : String)
    (h : assocLookup l k = none) : assocErase l k = l := by
  induction l with
  | nil => rfl
  | cons hd tl ih =>
    obtain ⟨k₀, v₀⟩ := hd
    by_cases h0 : k₀ = k
    · simp [assocLookup, h0] at h
    · simp only [assocLookup, if_neg h0] at h
      simp [assocErase, h0, ih h]

theorem mem_ordInsert (l : List String) (k k' : String) :
    k' ∈ ordInsert l k ↔ k' = k ∨ k' ∈ l := by
  unfold ordInsert
  split
  · rename_i hmem
    constructor
    · exact Or.inr
    · rintro (rfl | h) <;> [exact hmem; exact h]
  · exact List.mem_orderedInsert (· ≤ ·)

theorem nodup_ordInsert (l : List String) (k : String) (h : l.Nodup) :
    (ordInsert l k).Nodup := by
  unfold ordInsert
  split
  · exact h
  · rename_i hmem
    exact ((List.perm_orderedInsert (· ≤ ·) k l).nodup_iff).mpr (h.cons hmem)

theorem ordErase_sublist (l : List String) (k : String) :
    List.Sublist (ordErase l k) l := by
  induction l with
  | nil => simp [ordErase]
  | cons hd tl ih =>
    by_cases h : hd = k
    · simp [ordErase, h]
    · rw [show ordErase (hd :: tl) k = hd :: ordErase tl k from by simp [ordErase, h]]
      exact ih.cons₂ hd

theorem mem_ordErase_ne (l : List String) (k k' : String) (h : k' ≠ k) :
    k' ∈ ordErase l k ↔ k' ∈ l := by
  induction l with
  | nil => simp [ordErase]
  | cons hd tl ih =>
    by_cases h0 : hd = k
    · subst h0
      simp [ordErase, ih, h]
    · simp [ordErase, h0, ih]

theorem not_mem_ordErase_self (l : List String) (k : String) (h : l.Nodup) :
    k ∉ ordErase l k := by
  induction l with
  | nil => simp [ordErase]
  | cons hd tl ih =>
    simp only [List.nodup_cons] at h
    by_cases h0 : hd = k
    · subst h0
      simpa [ordErase] using h.1
    · simp only [ordErase, if_neg h0, List.mem_cons]
      rintro (rfl | hm)
      · exact h0 rfl
      · exact ih h.2 hm

theorem indexWF_empty : IndexWF Index.empty := by
  refine ⟨List.nodup_nil, List.nodup_nil, ?_⟩
  intro k
  simp [Index.empty, assocLookup]

theorem indexWF_insert (idx : Index) (k : String) (e : FileEntry) (h : IndexWF idx) :
    IndexWF { files := assocInsert idx.files k e,
              prefixes := ordInsert idx.prefixes k } := by
  obtain ⟨hnf, hnp, hiff⟩ := h
  refine ⟨nodup_keys_assocInsert _ _ _ hnf, nodup_ordInsert _ _ hnp, ?_⟩
  intro k'
  by_cases hk : k' = k
  · subst hk
    simp [mem_ordInsert, assocLookup_insert_self]
  · rw [mem_ordInsert, assocLookup_insert_ne _ _ _ _ hk]
    simp [hk, hiff k']

theorem indexWF_erase (idx : Index) (k : String) (h : IndexWF idx)
    (hex : ∃ e, assocLookup idx.files k = some e) :
    IndexWF { files := assocErase idx.files k,
              prefixes := ordErase idx.prefixes k } := by
  obtain ⟨hnf, hnp, hiff⟩ := h
  refine ⟨hnf.sublist ((assocErase_sublist _ _).map Prod.fst),
          hnp.sublist (ordErase_sublist _ _), ?_⟩
  intro k'
  by_cases hk : k' = k
  · subst hk
    simp [not_mem_ordErase_self _ _ hnp, assocLookup_erase_self _ _ hnf]
  · rw [mem_ordErase_ne _ _ _ hk, assocLookup_erase_ne _ _ _ hk]
    exact hiff k'

theorem indexWF_step (idx : Index) (op : IndexOp) (h : IndexWF idx) :
    IndexWF (indexStep idx op) := by
  cases op with
  | upsert k e =>
    unfold indexStep Index.upsert_file
    cases hl : assocLookup idx.files k with
    | some existing =>
      by_cases he : existing.editable = false
      · simp only [hl, he, if_pos rfl]
        exact h
      · simp only [hl, if_neg he]
        exact indexWF_insert idx k e h
    | none =>
      simp only [hl]
      exact indexWF_insert idx k e h
  | remove k =>
    unfold indexStep Index.remove_file
    cases hl : assocLookup idx.files k with
    | some existing =>
      simp only [hl, Option.isSome_some, if_pos]
      exact indexWF_erase idx k h ⟨existing, hl⟩
    | none =>
      simp only [hl, Option.isSome_none, Bool.false_eq_true, if_neg]
      rw [assocErase_of_lookup_none _ _ hl]
      exact h

/-- C5: index consistency invariant.  For every `Index` reachable from the
empty `Index` by any sequence of `upsert_file`/`remove_file` calls
(successful or failing), the ordered path set contains exactly the keys of
the path-to-entry mapping. -/
theorem index_prefixes_mirror_files (ops : List IndexOp) (k : String) :
    k ∈ (applyIndexOps ops).prefixes ↔ ∃ e, (applyIndexOps ops).get_file k = some e := by
  have hfold : ∀ (l : List IndexOp) (idx : Index), IndexWF idx →
      IndexWF (l.foldl indexStep idx) := by
    intro l
    induction l with
    | nil => exact fun _ h => h
    | cons op rest ih => exact fun idx h => ih _ (indexWF_step idx op h)
  exact (hfold ops Index.empty indexWF_empty).2.2 k

/-- C10: read-only entries are deletable.  `remove_file` on a key whose
entry is non-editable succeeds, returns `true` and removes the entry from
both the map and the ordered set, while every `upsert_file` on that key is
rejected with `ReadOnlyFile` — the guard applies only to upserts. -/
theorem remove_file_ignores_readonly (idx : Index) (k : String) (e : FileEntry)
    (hin : idx.get_file k = some e) (hro : e.editable = false)
    (hnf : (idx.files.map Prod.fst).Nodup) (hnp : idx.prefixes.Nodup) :
    ∃ idx', idx.remove_file k = .ok (true, idx') ∧ idx'.get_file k = none ∧
      k ∉ idx'.prefixes ∧ ∀ e', idx.upsert_file k e' = .error (.ReadOnlyFile k) := by
  refine ⟨{ files := assocErase idx.files k, prefixes := ordErase idx.prefixes k },
    ?_, ?_, ?_, ?_⟩
  · unfold Index.remove_file
    have hsome : (assocLookup idx.files k).isSome = true := by
      rw [show assocLookup idx.files k = idx.get_file k from rfl, hin]
      rfl
    simp [hsome]
  · exact assocLookup_erase_self _ _ hnf
  · exact not_mem_ordErase_self _ _ hnp
  · intro e'
    unfold Index.upsert_file
    rw [show assocLookup idx.files k = some e from hin]
    simp [hro]

/-- C10 witness: a one-entry index holding a read-only file. -/
theorem remove_file_ignores_readonly_witness :
    ((Index.mk [("ro.bin", FileEntry.from_bytes "bin" 0 ['x'] false)]
        ["ro.bin"]).get_file "ro.bin" =
      some (FileEntry.from_bytes "bin" 0 ['x'] false)) ∧
    ∃ idx', (Index.mk [("ro.bin", FileEntry.from_bytes "bin" 0 ['x'] false)]
        ["ro.bin"]).remove_file "ro.bin" = .ok (true, idx') ∧
      idx'.get_file "ro.bin" = none ∧ "ro.bin" ∉ idx'.prefixes ∧
      ∀ e', (Index.mk [("ro.bin", FileEntry.from_bytes "bin" 0 ['x'] false)]
        ["ro.bin"]).upsert_file "ro.bin" e' = .error (.ReadOnlyFile "ro.bin") :=
  ⟨by decide,
   remove_file_ignores_readonly _ "ro.bin" (FileEntry.from_bytes "bin" 0 ['x'] false)
     (by decide) (by decide) (by decide) (by decide)⟩

/-! LineIndex round-trip lemmas. -/

theorem buildStarts_pairwise (bytes : List Nat) :
    (LineIndex.build bytes).line_starts.Pairwise (· < ·) := by
  unfold LineIndex.build
  refine List.Pairwise.cons ?_ ?_
  · intro x hx
    obtain ⟨nl, _, rfl⟩ := List.mem_map.mp hx
    omega
  · rw [List.pairwise_map]
    exact (List.Pairwise.sublist (List.filter_sublist _)
      (List.pairwise_lt_range _)).imp (fun h => by omega)

theorem buildStarts_lt_total (bytes : List Nat) (hne : bytes ≠ []) :
    ∀ s ∈ (LineIndex.build bytes).line_starts, s < bytes.length := by
  unfold LineIndex.build
  intro s hs
  rcases List.mem_cons.mp hs with rfl | hmem
  · exact List.length_pos.mpr hne
  · obtain ⟨nl, hnl, rfl⟩ := List.mem_map.mp hmem
    have hp := (List.mem_filter.mp hnl).2
    have := (Bool.and_elim_right hp)
    exact of_decide_eq_true this

theorem takeWhile_le_length_of_pairwise :
    ∀ (l : List Nat), l.Pairwise (· < ·) → ∀ (i : Nat) (h : i < l.length),
      (l.takeWhile (fun s => decide (s ≤ l.get ⟨i, h⟩))).length = i + 1 := by
  intro l
  induction l with
  | nil => intro _ i h; exact absurd h (Nat.not_lt_zero i)
  | cons a t ih =>
    intro hp i h
    match i with
    | 0 =>
      rw [List.takeWhile_cons, if_pos (by simp)]
      cases t with
      | nil => simp
      | cons b t' =>
        have hab : a < b :=
          (List.pairwise_cons.mp hp).1 b (List.mem_cons_self b t')
        rw [List.takeWhile_cons, if_neg (by simpa using hab)]
        rfl
    | i + 1 =>
      have hit : i < t.length := by
        simp only [List.length_cons] at h
        omega
      have hb : (a :: t).get ⟨i + 1, h⟩ = t.get ⟨i, hit⟩ := rfl
      have hab : a ≤ t.get ⟨i, hit⟩ :=
        le_of_lt ((List.pairwise_cons.mp hp).1 _ (t.get_mem _ _))
      rw [List.takeWhile_cons, hb, if_pos (decide_eq_true hab), List.length_cons,
        ih (List.pairwise_cons.mp hp).2 i hit]

/-- C6 (amended): LineIndex round-trip on nonempty buffers.  For every
nonempty byte buffer and every valid 1-based line number `k`,
`line_of_byte (byte_of_line_start k)` returns `k`.  (On the empty buffer
the round-trip fails — see the counterexample.) -/
theorem line_of_byte_line_start_roundtrip (bytes : List Nat) (k : Nat)
    (hne : bytes ≠ []) (hk1 : 1 ≤ k) (hk2 : k ≤ (LineIndex.build bytes).line_count) :
    ∃ s, (LineIndex.build bytes).byte_of_line_start k = some s ∧
      (LineIndex.build bytes).line_of_byte s = some k := by
  have hlen : k - 1 < (LineIndex.build bytes).line_starts.length := by
    have hc : (LineIndex.build bytes).line_count =
        (LineIndex.build bytes).line_starts.length := rfl
    omega
  refine ⟨(LineIndex.build bytes).line_starts.get ⟨k - 1, hlen⟩, ?_, ?_⟩
  · unfold LineIndex.byte_of_line_start
    rw [if_neg (by omega)]
    exact List.get?_eq_get hlen
  · have hslt : (LineIndex.build bytes).line_starts.get ⟨k - 1, hlen⟩ <
        (LineIndex.build bytes).total_bytes := by
      have hmem := ((LineIndex.build bytes).line_starts).get_mem (k - 1) hlen
      have := buildStarts_lt_total bytes hne _ hmem
      simpa [LineIndex.build] using this
    unfold LineIndex.line_of_byte
    rw [if_neg (by omega)]
    rw [takeWhile_le_length_of_pairwise _ (buildStarts_pairwise bytes) (k - 1) hlen]
    have : k - 1 + 1 = k := by omega
    rw [this, Nat.max_eq_left hk1]

/-- C6 counterexample: on the empty buffer `line_count` is 1, so `k = 1`
is a valid line number and `byte_of_line_start 1 = some 0`, yet
`line_of_byte 0 = none` (`byte >= total_bytes` with `total_bytes = 0`), so
the round-trip does not return `k`. -/
theorem line_of_byte_line_start_empty_counterexample :
    1 ≤ (LineIndex.build []).line_count ∧
    (LineIndex.build []).byte_of_line_start 1 = some 0 ∧
    (LineIndex.build []).line_of_byte 0 = none := by
  refine ⟨by decide, by decide, by decide⟩

/-- C6 witness: buffer `"a\nb"` (bytes `[97, 10, 98]`), line 2. -/
theorem line_of_byte_line_start_roundtrip_witness :
    (([97, 10, 98] : List Nat) ≠ [] ∧ 1 ≤ 2 ∧
      2 ≤ (LineIndex.build [97, 10, 98]).line_count) ∧
    ∃ s, (LineIndex.build [97, 10, 98]).byte_of_line_start 2 = some s ∧
      (LineIndex.build [97, 10, 98]).line_of_byte s = some 2 :=
  ⟨⟨by decide, by decide, by decide⟩,
   line_of_byte_line_start_roundtrip [97, 10, 98] 2 (by decide) (by decide) (by decide)⟩

/-! Transactional rollback. -/

theorem with_snapshot_staged_restore {α : Type} (m : IndexManager)
    (f : IndexManager → Except Error α × IndexManager) (e : Error)
    (h : (m.with_snapshot f).1 = .error e) :
    (m.with_snapshot f).2.staged = m.staged := by
  unfold IndexManager.with_snapshot at h ⊢
  rcases hf : f m with ⟨r, m'⟩
  rw [hf] at h
  cases r with
  | ok a => simp at h
  | error e' => rfl

/-- C9: transactional rollback.  Every multi-step batch handler runs under
`with_snapshot`: when any step fails, the staging state afterwards equals
the staging state captured on entry — batch moves, batch copies and batch
line edits are all-or-nothing on the staged index. -/
theorem batch_failure_restores_staging :
    (∀ (m : IndexManager) (now : Int) (ops : List (String × String)) (e : Error),
        (handle_move_files m now ops).1 = .error e →
        (handle_move_files m now ops).2.staged = m.staged) ∧
    (∀ (m : IndexManager) (now : Int) (ops : List (String × String)) (e : Error),
        (handle_copy_files m now ops).1 = .error e →
        (handle_copy_files m now ops).2.staged = m.staged) ∧
    (∀ (m : IndexManager) (now : Int) (req : ReplaceLinesRequest) (e : Error),
        (handle_replace_lines m now req).1 = .error e →
        (handle_replace_lines m now req).2.staged = m.staged) := by
  refine ⟨?_, ?_, ?_⟩
  · intro m now ops e h
    unfold handle_move_files at h ⊢
    exact with_snapshot_staged_restore m _ e h
  · intro m now ops e h
    unfold handle_copy_files at h ⊢
    exact with_snapshot_staged_restore m _ e h
  · intro m now req e h
    unfold handle_replace_lines at h ⊢
    exact with_snapshot_staged_restore m _ e h

/-- C9 witness: a manager with an empty active staging session; a move of
a missing file, a copy of a missing file, and a line edit on a missing
file all fail and leave the staging state as captured. -/
theorem batch_failure_restores_staging_witness :
    ((handle_move_files (IndexManager.empty.begin_staging.2) 0 [("a", "b")]).1 =
        .error (.FileNotFound "a") ∧
      (handle_move_files (IndexManager.empty.begin_staging.2) 0 [("a", "b")]).2.staged =
        (IndexManager.empty.begin_staging.2).staged) ∧
    ((handle_copy_files (IndexManager.empty.begin_staging.2) 0 [("a", "b")]).1 =
        .error (.FileNotFound "a") ∧
      (handle_copy_files (IndexManager.empty.begin_staging.2) 0 [("a", "b")]).2.staged =
        (IndexManager.empty.begin_staging.2).staged) ∧
    ((handle_replace_lines (IndexManager.empty.begin_staging.2) 0
          ⟨"a", []⟩).1 = .error (.InvalidPath "File not found: a") ∧
      (handle_replace_lines (IndexManager.empty.begin_staging.2) 0
          ⟨"a", []⟩).2.staged = (IndexManager.empty.begin_staging.2).staged) :=
  ⟨⟨by decide, batch_failure_restores_staging.1 _ 0 [("a", "b")]
      (.FileNotFound "a") (by decide)⟩,
   ⟨by decide, batch_failure_restores_staging.2.1 _ 0 [("a", "b")]
      (.FileNotFound "a") (by decide)⟩,
   ⟨by decide, batch_failure_restores_staging.2.2 _ 0 ⟨"a", []⟩
      (.InvalidPath "File not found: a") (by decide)⟩⟩

/-! Inverted line ranges. -/

theorem applyLineOp_replace_inverted (st : LineOpState) (s e : Nat) (c : List Char)
    (h : e < s) : applyLineOp st (.ReplaceRange s e c) = st := by
  simp only [applyLineOp]
  rw [if_neg]
  rintro ⟨-, -, h3⟩
  omega

theorem apply_line_operations_single_inverted (content : List Char) (s e : Nat)
    (c : List Char) (h : e < s) :
    apply_line_operations content [.ReplaceRange s e c] =
      apply_line_operations content [] := by
  unfold apply_line_operations
  simp only [List.insertionSort, List.orderedInsert, List.foldl]
  rw [applyLineOp_replace_inverted _ _ _ _ h]

/-- C4 (amended): a `ReplaceLines` replacement whose start line is greater
than its end line is *not* rejected with `InvalidRange` — it is silently
ignored: `applyLineOp` leaves the line state untouched on such an entry,
and a request consisting of that replacement behaves exactly like the
empty request (the handler succeeds and re-stages the content it read). -/
theorem replace_lines_inverted_range_ignored :
    (∀ (st : LineOpState) (s e : Nat) (c : List Char), e < s →
        applyLineOp st (.ReplaceRange s e c) = st) ∧
    (∀ (m : IndexManager) (now : Int) (p : String) (s e : Nat) (c : List Char), e < s →
        handle_replace_lines m now ⟨p, [(s, e, c)]⟩ =
          handle_replace_lines m now ⟨p, []⟩) := by
  refine ⟨applyLineOp_replace_inverted, ?_⟩
  intro m now p s e c h
  unfold handle_replace_lines
  congr 1
  funext m'
  cases hgc : get_file_content m' p .Staged with
  | error err => rfl
  | ok content =>
    simp only [List.map]
    rw [apply_line_operations_single_inverted content s e c h]

/-- C4 counterexample: a staged file `"a.txt"` with three lines and the
request `[(3, 2, "X")]` (start 3 > end 2).  `handle_replace_lines` returns
`Ok` — not `InvalidRange` — and content *is* staged: the key is marked
modified while the file text is unchanged. -/
theorem replace_lines_inverted_range_not_rejected :
    (handle_replace_lines
        { active := Index.empty,
          staged := some
            { snapshot :=
                { files := [("a.txt", FileEntry.from_bytes "txt" 0 "a\nb\nc".toList true)],
                  prefixes := ["a.txt"] },
              modified := [], change_stats := [], moves := [] },
          line_index_cache := [] } 5 ⟨"a.txt", [(3, 2, "X".toList)]⟩).1 =
      .ok { path := "a.txt", lines_replaced := 0, lines_added := 0,
            total_lines := 3, original_lines := 3 } ∧
    ((handle_replace_lines
        { active := Index.empty,
          staged := some
            { snapshot :=
                { files := [("a.txt", FileEntry.from_bytes "txt" 0 "a\nb\nc".toList true)],
                  prefixes := ["a.txt"] },
              modified := [], change_stats := [], moves := [] },
          line_index_cache := [] } 5 ⟨"a.txt", [(3, 2, "X".toList)]⟩).2.staged.map
      (fun st => (st.modified, (st.snapshot.get_file "a.txt").map FileEntry.bytes))) =
      some (["a.txt"], some (some "a\nb\nc".toList)) := by
  refine ⟨by decide, by decide⟩

/-- C4 witness for the amended claim. -/
theorem replace_lines_inverted_range_ignored_witness :
    (2 < 3 ∧
      applyLineOp ⟨[['a']], 0, 0⟩ (.ReplaceRange 3 2 ['X']) = ⟨[['a']], 0, 0⟩) ∧
    handle_replace_lines
        { active := Index.empty,
          staged := some
            { snapshot :=
                { files := [("b.txt", FileEntry.from_bytes "txt" 0 "a\nb".toList true)],
                  prefixes := ["b.txt"] },
              modified := [], change_stats := [], moves := [] },
          line_index_cache := [] } 7 ⟨"b.txt", [(3, 2, ['X'])]⟩ =
      handle_replace_lines
        { active := Index.empty,
          staged := some
            { snapshot :=
                { files := [("b.txt", FileEntry.from_bytes "txt" 0 "a\nb".toList true)],
                  prefixes := ["b.txt"] },
              modified := [], change_stats := [], moves := [] },
          line_index_cache := [] } 7 ⟨"b.txt", []⟩ :=
  ⟨⟨by decide, replace_lines_inverted_range_ignored.1 ⟨[['a']], 0, 0⟩ 3 2 ['X'] (by decide)⟩,
   replace_lines_inverted_range_ignored.2 _ 7 "b.txt" 3 2 ['X'] (by decide)⟩

/-! Line-count bookkeeping for `apply_line_operations`. -/

theorem splitNl_ne_nil (s : List Char) : splitNl s ≠ [] := by
  cases s with
  | nil => simp [splitNl]
  | cons c cs =>
    simp only [splitNl]
    split
    · simp
    · split <;> simp

theorem not_nl_mem_splitNl (s : List Char) : ∀ p ∈ splitNl s, '\n' ∉ p := by
  induction s with
  | nil =>
    intro p hp
    simp only [splitNl, List.mem_singleton] at hp
    simp [hp]
  | cons c cs ih =>
    intro p hp
    by_cases hc : c = '\n'
    · simp only [splitNl, if_pos hc] at hp
      rcases List.mem_cons.mp hp with rfl | hm
      · simp
      · exact ih p hm
    · simp only [splitNl, if_neg hc] at hp
      cases hsp : splitNl cs with
      | nil => exact absurd hsp (splitNl_ne_nil cs)
      | cons q qs =>
        rw [hsp] at hp
        rcases List.mem_cons.mp hp with rfl | hm
        · intro hmem
          rcases List.mem_cons.mp hmem with he | hq
          · exact hc he.symm
          · exact ih q (hsp ▸ List.mem_cons_self q qs) hq
        · exact ih p (hsp ▸ List.mem_cons_of_mem q hm)

theorem not_nl_stripTrailingCr (q : List Char) (h : '\n' ∉ q) :
    '\n' ∉ stripTrailingCr q := by
  unfold stripTrailingCr
  split
  · exact fun hm => h ((List.dropLast_sublist q).subset hm)
  · exact h

theorem not_nl_mem_rustLines (s : List Char) : ∀ p ∈ rustLines s, '\n' ∉ p := by
  intro p hp
  unfold rustLines at hp
  obtain ⟨q, hq, rfl⟩ := List.mem_map.mp hp
  refine not_nl_stripTrailingCr q ?_
  have hq' : q ∈ splitNl s := by
    by_cases hlast : (splitNl s).getLast? = some []
    · rw [if_pos hlast] at hq
      exact (List.dropLast_sublist _).subset hq
    · rwa [if_neg hlast] at hq
  exact not_nl_mem_splitNl s q hq'

theorem splitNl_of_no_nl (l : List Char) (h : '\n' ∉ l) : splitNl l = [l] := by
  induction l with
  | nil => rfl
  | cons c l' ih =>
    have hc : c ≠ '\n' := fun he => h (he ▸ List.mem_cons_self c l')
    have hl' : '\n' ∉ l' := fun hm => h (List.mem_cons_of_mem c hm)
    simp only [splitNl, if_neg hc, ih hl']

theorem splitNl_append_nl (l r : List Char) (h : '\n' ∉ l) :
    splitNl (l ++ '\n' :: r) = l :: splitNl r := by
  induction l with
  | nil => simp [splitNl]
  | cons c l' ih =>
    have hc : c ≠ '\n' := fun he => h (he ▸ List.mem_cons_self c l')
    have hl' : '\n' ∉ l' := fun hm => h (List.mem_cons_of_mem c hm)
    simp only [List.cons_append, splitNl, if_neg hc, List.append_eq, ih hl']

theorem splitNl_joinNl (ls : List (List Char)) (h0 : ls ≠ [])
    (hfree : ∀ l ∈ ls, '\n' ∉ l) : splitNl (joinNl ls) = ls := by
  induction ls with
  | nil => exact absurd rfl h0
  | cons l tail ih =>
    cases tail with
    | nil =>
      show splitNl (joinNl [l]) = [l]
      exact splitNl_of_no_nl l (hfree l (List.mem_cons_self l []))
    | cons l₂ rest =>
      show splitNl (l ++ '\n' :: joinNl (l₂ :: rest)) = l :: l₂ :: rest
      rw [splitNl_append_nl l _ (hfree l (List.mem_cons_self _ _)),
        ih (by simp) (fun p hp => hfree p (List.mem_cons_of_mem l hp))]

theorem joinNl_concat (ls : List (List Char)) (x : List Char) (h : ls ≠ []) :
    joinNl (ls ++ [x]) = joinNl ls ++ '\n' :: x := by
  induction ls with
  | nil => exact absurd rfl h
  | cons l tail ih =>
    cases tail with
    | nil => simp [joinNl]
    | cons l₂ rest =>
      show joinNl (l :: ((l₂ :: rest) ++ [x])) =
        (l ++ '\n' :: joinNl (l₂ :: rest)) ++ '\n' :: x
      have hstep : joinNl (l :: ((l₂ :: rest) ++ [x])) =
          l ++ '\n' :: joinNl ((l₂ :: rest) ++ [x]) := by
        rw [List.cons_append]
        rfl
      rw [hstep, ih (by simp), List.append_assoc]
      rfl

theorem joinNl_eq_nil_iff (ls : List (List Char)) (h0 : ls ≠ []) :
    joinNl ls = [] ↔ ls = [[]] := by
  cases ls with
  | nil => exact absurd rfl h0
  | cons l tail =>
    cases tail with
    | nil =>
      show (joinNl [l] = []) ↔ _
      constructor
      · intro h
        rw [show joinNl [l] = l from rfl] at h
        rw [h]
      · intro h
        cases h
        rfl
    | cons l₂ rest =>
      show (l ++ '\n' :: joinNl (l₂ :: rest) = []) ↔ _
      simp

theorem joinNl_getLast_nl (ls : List (List Char)) (hlast : ls.getLast? = some [])
    (hne : ls ≠ [[]]) : (joinNl ls).getLast? = some '\n' := by
  have h0 : ls ≠ [] := by
    intro h
    rw [h] at hlast
    exact Option.noConfusion hlast
  have hgl : ls.getLast h0 = [] := by
    have h1 := List.getLast?_eq_getLast ls h0
    rw [h1] at hlast
    exact Option.some.inj hlast
  have hsplit : ls = ls.dropLast ++ [[]] := by
    conv_lhs => rw [← List.dropLast_append_getLast h0]
    rw [hgl]
  have hdrop : ls.dropLast ≠ [] := by
    intro h
    rw [h, List.nil_append] at hsplit
    exact hne hsplit
  calc (joinNl ls).getLast? = (joinNl (ls.dropLast ++ [[]])).getLast? := by rw [← hsplit]
    _ = (joinNl ls.dropLast ++ '\n' :: []).getLast? := by rw [joinNl_concat _ _ hdrop]
    _ = some '\n' := by
        rw [show joinNl ls.dropLast ++ '\n' :: [] = joinNl ls.dropLast ++ ['\n'] from rfl]
        exact List.getLast?_concat _

theorem applyLineOp_len (st : LineOpState) (op : LineOperation) (L0 : Nat)
    (h : st.lines.length + st.removed = L0 + st.added) :
    (applyLineOp st op).lines.length + (applyLineOp st op).removed =
      L0 + (applyLineOp st op).added := by
  cases op with
  | ReplaceRange s e c =>
    simp only [applyLineOp]
    split
    · rename_i hcond
      obtain ⟨h1, h2, h3⟩ := hcond
      split
      · simp only [List.length_append, List.length_take, List.length_drop]
        omega
      · simp only [List.length_append, List.length_take, List.length_drop]
        omega
    · exact h
  | DeleteRange s e =>
    simp only [applyLineOp]
    split
    · rename_i hcond
      obtain ⟨h1, h2, h3⟩ := hcond
      simp only [List.length_append, List.length_take, List.length_drop]
      omega
    · exact h
  | InsertBefore line c =>
    simp only [applyLineOp]
    split
    · rename_i hcond
      simp only [List.length_append, List.length_take, List.length_drop]
      omega
    · exact h
  | InsertAfter line c =>
    simp only [applyLineOp]
    split
    · rename_i hcond
      simp only [List.length_append, List.length_take, List.length_drop]
      omega
    · exact h

theorem foldl_applyLineOp_len (ops : List LineOperation) :
    ∀ (st : LineOpState) (L0 : Nat), st.lines.length + st.removed = L0 + st.added →
      (ops.foldl applyLineOp st).lines.length + (ops.foldl applyLineOp st).removed =
        L0 + (ops.foldl applyLineOp st).added := by
  induction ops with
  | nil => exact fun st L0 h => h
  | cons op rest ih =>
    intro st L0 h
    exact ih (applyLineOp st op) L0 (applyLineOp_len st op L0 h)

theorem mem_cut_free (base : List (List Char)) (hbase : ∀ l ∈ base, '\n' ∉ l)
    (a b : Nat) : ∀ l ∈ base.take a ++ base.drop b, '\n' ∉ l := by
  intro l hl
  rcases List.mem_append.mp hl with h1 | h2
  · exact hbase l (List.take_subset a base h1)
  · exact hbase l (List.drop_subset b base h2)

theorem mem_splice_free (base newl : List (List Char))
    (hbase : ∀ l ∈ base, '\n' ∉ l) (hnew : ∀ l ∈ newl, '\n' ∉ l) (a b : Nat) :
    ∀ l ∈ base.take a ++ newl ++ base.drop b, '\n' ∉ l := by
  intro l hl
  rcases List.mem_append.mp hl with h1 | h2
  · rcases List.mem_append.mp h1 with h3 | h4
    · exact hbase l (List.take_subset a base h3)
    · exact hnew l h4
  · exact hbase l (List.drop_subset b base h2)

theorem applyLineOp_free (st : LineOpState) (op : LineOperation)
    (h : ∀ l ∈ st.lines, '\n' ∉ l) :
    ∀ l ∈ (applyLineOp st op).lines, '\n' ∉ l := by
  cases op with
  | ReplaceRange s e c =>
    simp only [applyLineOp]
    split
    · split
      · exact mem_splice_free _ _ (mem_cut_free st.lines h _ _)
          (not_nl_mem_rustLines c) _ _
      · exact mem_cut_free st.lines h _ _
    · exact h
  | DeleteRange s e =>
    simp only [applyLineOp]
    split
    · exact mem_cut_free st.lines h _ _
    · exact h
  | InsertBefore line c =>
    simp only [applyLineOp]
    split
    · exact mem_splice_free st.lines _ h (not_nl_mem_rustLines c) _ _
    · exact h
  | InsertAfter line c =>
    simp only [applyLineOp]
    split
    · exact mem_splice_free st.lines _ h (not_nl_mem_rustLines c) _ _
    · exact h

theorem foldl_applyLineOp_free (ops : List LineOperation) :
    ∀ (st : LineOpState), (∀ l ∈ st.lines, '\n' ∉ l) →
      ∀ l ∈ (ops.foldl applyLineOp st).lines, '\n' ∉ l := by
  induction ops with
  | nil => exact fun st h => h
  | cons op rest ih =>
    intro st h
    exact ih (applyLineOp st op) (applyLineOp_free st op h)

theorem rustLines_joinNl_length (ls : List (List Char)) (h0 : ls ≠ [])
    (hfree : ∀ l ∈ ls, '\n' ∉ l) (hlast : ls.getLast? ≠ some []) :
    (rustLines (joinNl ls)).length = ls.length := by
  unfold rustLines
  rw [splitNl_joinNl ls h0 hfree]
  show ((if ls.getLast? = some [] then ls.dropLast else ls).map stripTrailingCr).length =
    ls.length
  rw [if_neg hlast, List.length_map]

theorem rustLines_joinNl_newline_length (ls : List (List Char)) (h0 : ls ≠ [])
    (hfree : ∀ l ∈ ls, '\n' ∉ l) :
    (rustLines (joinNl ls ++ ['\n'])).length = ls.length := by
  unfold rustLines
  have hjoin : joinNl ls ++ ['\n'] = joinNl (ls ++ [[]]) := by
    rw [joinNl_concat ls [] h0]
  rw [hjoin, splitNl_joinNl (ls ++ [[]]) (by simp) ?hfree']
  case hfree' =>
    intro l hl
    rcases List.mem_append.mp hl with hl1 | hl2
    · exact hfree l hl1
    · rw [List.mem_singleton.mp hl2]
      simp
  show ((if (ls ++ [[]]).getLast? = some [] then (ls ++ [[]]).dropLast
      else ls ++ [[]]).map stripTrailingCr).length = ls.length
  rw [if_pos (List.getLast?_concat ls), List.dropLast_concat, List.length_map]

/-- C3 (amended): line-count bookkeeping.  If
`apply_line_operations(content, ops) = (new_content, added, removed)`, then
`new_content.lines().count() + removed == content.lines().count() + added`
provided the new content is nonempty and either the original content ended
with a newline or the new content does not end with one.  (Joining and
trailing-newline restoration can otherwise drop a final empty line — see
the counterexample; the internal line-vector length always satisfies the
equation.) -/
theorem apply_line_operations_line_count (content : List Char) (ops : List LineOperation)
    (hne : (apply_line_operations content ops).1 ≠ [])
    (hnl : content.getLast? = some '\n' ∨
      (apply_line_operations content ops).1.getLast? ≠ some '\n') :
    lineCount (apply_line_operations content ops).1 +
        (apply_line_operations content ops).2.2 =
      lineCount content + (apply_line_operations content ops).2.1 := by
  have hdef : apply_line_operations content ops =
      (if content.getLast? = some '\n' ∧
          joinNl ((ops.insertionSort (fun a b => b.startLine ≤ a.startLine)).foldl
            applyLineOp ⟨rustLines content, 0, 0⟩).lines ≠ [] then
        joinNl ((ops.insertionSort (fun a b => b.startLine ≤ a.startLine)).foldl
          applyLineOp ⟨rustLines content, 0, 0⟩).lines ++ ['\n']
      else
        joinNl ((ops.insertionSort (fun a b => b.startLine ≤ a.startLine)).foldl
          applyLineOp ⟨rustLines content, 0, 0⟩).lines,
      ((ops.insertionSort (fun a b => b.startLine ≤ a.startLine)).foldl
        applyLineOp ⟨rustLines content, 0, 0⟩).added,
      ((ops.insertionSort (fun a b => b.startLine ≤ a.startLine)).foldl
        applyLineOp ⟨rustLines content, 0, 0⟩).removed) := rfl
  set st := (ops.insertionSort (fun a b => b.startLine ≤ a.startLine)).foldl
    applyLineOp ⟨rustLines content, 0, 0⟩ with hst
  have hinv : st.lines.length + st.removed = (rustLines content).length + st.added :=
    foldl_applyLineOp_len _ ⟨rustLines content, 0, 0⟩ (rustLines content).length rfl
  have hfree : ∀ l ∈ st.lines, '\n' ∉ l :=
    foldl_applyLineOp_free _ ⟨rustLines content, 0, 0⟩ (not_nl_mem_rustLines content)
  rw [hdef] at hne hnl ⊢
  have hcount : lineCount content = (rustLines content).length := rfl
  by_cases hewn : content.getLast? = some '\n'
  · by_cases hjoin : joinNl st.lines = []
    · rw [if_neg (by simp [hjoin])] at hne
      exact absurd hjoin hne
    · have hls0 : st.lines ≠ [] := by
        intro h
        exact hjoin (by rw [h]; rfl)
      rw [if_pos ⟨hewn, hjoin⟩]
      show (rustLines (joinNl st.lines ++ ['\n'])).length + st.removed =
        lineCount content + st.added
      rw [rustLines_joinNl_newline_length st.lines hls0 hfree, hcount]
      omega
  · rw [if_neg (by rintro ⟨he, -⟩; exact hewn he)] at hne hnl ⊢
    have hls0 : st.lines ≠ [] := by
      intro h
      exact hne (by rw [h]; rfl)
    have hlast : st.lines.getLast? ≠ some [] := by
      intro hsome
      by_cases hsingle : st.lines = [[]]
      · exact hne (by rw [hsingle]; rfl)
      · rcases hnl with he | hgl
        · exact hewn he
        · exact hgl (joinNl_getLast_nl st.lines hsome hsingle)
    show (rustLines (joinNl st.lines)).length + st.removed = lineCount content + st.added
    rw [rustLines_joinNl_length st.lines hls0 hfree hlast, hcount]
    omega

/-- C3 counterexample: `apply_line_operations("\n", []) = ("", 0, 0)`, but
`"".lines().count() = 0` while `"\n".lines().count() = 1`: joining the
single empty line and refusing to append a newline to the empty result
drops the line. -/
theorem apply_line_operations_line_count_counterexample :
    apply_line_operations ['\n'] [] = ([], 0, 0) ∧
    ¬(lineCount [] + 0 = lineCount ['\n'] + 0) := by
  refine ⟨by decide, by decide⟩

/-- C3 witness: replacing line 1 of `"a\nb"` by the two lines `"X\nY"`. -/
theorem apply_line_operations_line_count_witness :
    ((apply_line_operations "a\nb".toList [.ReplaceRange 1 1 "X\nY".toList]).1 ≠ [] ∧
      ("a\nb".toList.getLast? = some '\n' ∨
        (apply_line_operations "a\nb".toList
          [.ReplaceRange 1 1 "X\nY".toList]).1.getLast? ≠ some '\n')) ∧
    lineCount (apply_line_operations "a\nb".toList [.ReplaceRange 1 1 "X\nY".toList]).1 +
        (apply_line_operations "a\nb".toList [.ReplaceRange 1 1 "X\nY".toList]).2.2 =
      lineCount "a\nb".toList +
        (apply_line_operations "a\nb".toList [.ReplaceRange 1 1 "X\nY".toList]).2.1 :=
  ⟨⟨by decide, by decide⟩,
   apply_line_operations_line_count "a\nb".toList [.ReplaceRange 1 1 "X\nY".toList]
     (by decide) (by decide)⟩

end Conduit
